import Mathlib

/-!
Shallow embedding of the country_xchange_api refresh pipeline and read API.

The repository contains two divergent implementations of the refresh
pipeline:
* `main.py` (FastAPI endpoint `refresh_countries`, helper `calculate_gdp`),
  embedded below with names starting in `m`;
* `src/core/logic.py` (script `refresh_main`, `fetch_external_data`,
  `process_and_save_countries`, `update_global_status`), embedded with the
  names starting in `l`.

Both use SQLAlchemy sessions created with `autoflush=False`: queries issued
during a refresh loop see only the committed rows, never the pending inserts
or pending field updates of the same session.  A session is therefore
modelled as the committed base list plus an index-keyed update map plus a
pending-insert list; `commit` flushes everything at once (validating the
NOT NULL and UNIQUE column constraints of the respective model) or rolls
the whole transaction back.

Timestamps are modelled as natural numbers (the cycle timestamp is taken
once by `datetime.utcnow()`; `logic.py` stores its `isoformat()` string,
which is an injective image of the datetime, so equality of stored stamps
is equality of the modelled numbers).  The `random.uniform` multiplier is
modelled as an explicit per-record parameter `mult : Nat -> Rat` indexed by
the position of the record in the fetched list, matching the requirement of
the spec
that the random source be injectable.
-/

namespace CountryXchange

/-- One element of the `currencies` JSON array of a fetched record: either an
object whose `code` field is read with `.get("code")`, or a malformed
(non-object) element on which `.get` raises. -/
inductive CurrencyEntry where
  | entry (code : Option String)
  | malformed
  deriving DecidableEq

/-- One record of the countries JSON payload, as accessed by both refresh
implementations via `country_info.get(...)`. -/
structure RawCountry where
  name : Option String
  capital : Option String
  region : Option String
  population : Option Int
  flag : Option String
  currencies : Option (List CurrencyEntry)
  deriving DecidableEq

/-- The exchange-rate payload: the `rates` mapping from currency code to
float rate. -/
abbrev Rates := List (String × ℚ)

/-- Dictionary lookup `exchange_rates.get(code)` / `code in exchange_rates`. -/
def lookupRate (rates : Rates) (code : String) : Option ℚ :=
  (rates.find? (fun p => p.1 == code)).map Prod.snd

/-- Reading `currencies[0].get("code")` guarded by
`if currencies and len(currencies) > 0` (identical in both
implementations); a malformed first element raises. -/
def firstCurrencyCode (cs : Option (List CurrencyEntry)) : Except Unit (Option String) :=
  match cs with
  | some (CurrencyEntry.entry c :: _) => Except.ok c
  | some (CurrencyEntry.malformed :: _) => Except.error ()
  | _ => Except.ok none

/-! ## main.py embedding -/

/-- A committed or pending row of the `countries` table of `main.py`
(`CountryModel`): `name` and `population` are NOT NULL and `name` is
UNIQUE; the skip conditions of the loop guarantee written rows have a nonempty
name and nonzero population, so these fields are plain values here. -/
structure MRow where
  name : String
  capital : Option String
  region : Option String
  population : Int
  currency_code : Option String
  exchange_rate : Option ℚ
  estimated_gdp : Option ℚ
  flag_url : Option String
  last_refreshed_at : Nat
  deriving DecidableEq

/-- Python truthiness of an optional string (`if not currency_code`):
false for `None` and for the empty string. -/
def truthyStr : Option String → Bool
  | none => false
  | some s => s ≠ ""

/-- Embedding of `calculate_gdp` from `main.py`: `None` when the rate is
`None` or equals zero, otherwise `(population * random_multiplier) /
exchange_rate` with the injected multiplier. -/
def calculate_gdp (population : Int) (exchange_rate : Option ℚ) (mult : ℚ) : Option ℚ :=
  match exchange_rate with
  | none => none
  | some r => if r = 0 then none else some ((population * mult) / r)

/-- One iteration body of the `refresh_countries` loop of `main.py`, up to
the database lookup: `Except.error` is a per-record exception (malformed
currencies element), `Except.ok none` is a `continue` on the skip
conditions (falsy name or falsy population), `Except.ok (some row)` is the
field set that will be written by update or insert. -/
def mProcessRecord (rates : Rates) (ts : Nat) (mult : ℚ) (r : RawCountry) :
    Except Unit (Option MRow) :=
  match r.name with
  | none => Except.ok none
  | some name =>
    if name = "" then Except.ok none
    else
      let population := r.population.getD 0
      if population = 0 then Except.ok none
      else
        match firstCurrencyCode r.currencies with
        | Except.error () => Except.error ()
        | Except.ok ccode =>
          let rateAndGdp : Option ℚ × Option ℚ :=
            match ccode with
            | some c =>
              if c ≠ "" then
                match lookupRate rates c with
                | some rate => (some rate, calculate_gdp population (some rate) mult)
                | none => (none, none)
              else (none, none)
            | none => (none, none)
          let estimated_gdp : Option ℚ :=
            if truthyStr ccode then rateAndGdp.2 else some 0
          Except.ok (some
            { name := name, capital := r.capital, region := r.region,
              population := population, currency_code := ccode,
              exchange_rate := rateAndGdp.1, estimated_gdp := estimated_gdp,
              flag_url := r.flag, last_refreshed_at := ts })

/-- The state of the `main.py` SQLAlchemy session during one refresh:
committed rows, pending in-memory updates keyed by row index (most recent
first), and pending inserts in insertion order.  With `autoflush=False`
the lookups of the loop observe only `base`. -/
structure MSession where
  base : List MRow
  mods : List (Nat × MRow)
  inserts : List MRow
  deriving DecidableEq

/-- Applies the pending updates to the committed rows, flushing the
session.  An update in `main.py` assigns every mutable column except
`name`, so the stored name survives an update. -/
def mApplyModsFrom (mods : List (Nat × MRow)) : Nat → List MRow → List MRow
  | _, [] => []
  | i, r :: rs =>
    (match (mods.find? (fun p => p.1 == i)).map Prod.snd with
      | some m => { m with name := r.name }
      | none => r) :: mApplyModsFrom mods (i + 1) rs

/-- Flushed view of the committed rows under the pending updates of the session. -/
def mApplyMods (base : List MRow) (mods : List (Nat × MRow)) : List MRow :=
  mApplyModsFrom mods 0 base

/-- One upsert step of `main.py`: look up the first committed row whose
lowercased name equals the incoming lowercased name
(`func.lower(CountryModel.name) == name.lower()`); on a hit record an
update, otherwise add a pending insert. -/
def mStep (sess : MSession) (row : MRow) : MSession :=
  match sess.base.findIdx? (fun b => b.name.toLower == row.name.toLower) with
  | some i => { sess with mods := (i, row) :: sess.mods }
  | none => { sess with inserts := sess.inserts ++ [row] }

/-- The `for country_data in countries_data` loop of `refresh_countries`:
skip conditions and per-record exceptions both `continue`; processed
records upsert into the session and increment the `processed` counter. -/
def mLoop (rates : Rates) (ts : Nat) (mult : Nat → ℚ) :
    List RawCountry → Nat → MSession → MSession × Nat
  | [], _, sess => (sess, 0)
  | r :: rest, idx, sess =>
    match mProcessRecord rates ts (mult idx) r with
    | Except.ok (some row) =>
      let out := mLoop rates ts mult rest (idx + 1) (mStep sess row)
      (out.1, out.2 + 1)
    | _ => mLoop rates ts mult rest (idx + 1) sess

/-- Commit of the `main.py` session: flush updates and inserts; the UNIQUE
constraint on `name` rejects duplicate names among the flushed rows, in
which case the transaction rolls back (`none`). -/
def mCommit (sess : MSession) : Option (List MRow) :=
  let finalBase := mApplyMods sess.base sess.mods
  if (sess.inserts.map MRow.name).Nodup ∧
      ∀ p ∈ sess.inserts, ∀ b ∈ finalBase, p.name ≠ b.name
  then some (finalBase ++ sess.inserts)
  else none

/-- Outcome of the `main.py` refresh endpoint. -/
inductive MOutcome where
  | fetchFailure
  | internalError
  | success (processed total : Nat)
  deriving DecidableEq

/-- Embedding of the `refresh_countries` endpoint of `main.py`: a failed
fetch raises before any write (503); otherwise the loop runs against one
snapshot of fetched data, commit either lands everything or rolls back
(500), and on success the endpoint reports the processed count and the
resulting total row count. -/
def mRefresh (countriesFetch : Except Unit (List RawCountry))
    (ratesFetch : Except Unit Rates) (ts : Nat) (mult : Nat → ℚ)
    (db : List MRow) : List MRow × MOutcome :=
  match countriesFetch with
  | Except.error () => (db, MOutcome.fetchFailure)
  | Except.ok countries =>
    match ratesFetch with
    | Except.error () => (db, MOutcome.fetchFailure)
    | Except.ok rates =>
      let out := mLoop rates ts mult countries 0 ⟨db, [], []⟩
      match mCommit out.1 with
      | none => (db, MOutcome.internalError)
      | some rows => (rows, MOutcome.success out.2 rows.length)

/-! ## logic.py embedding -/

/-- A row of the `countries` table of `src/models.py` (`Country`): `name`,
`population` and `last_refreshed_at` are NOT NULL (no UNIQUE constraint on
`name`); `process_and_save_countries` can stage rows whose name or
population is missing, which the commit-time constraint check rejects. -/
structure LRow where
  name : Option String
  population : Option Int
  currency_code : Option String
  capital : Option String
  region : Option String
  exchange_rate : Option ℚ
  estimated_gdp : Option ℚ
  flag_url : Option String
  last_refreshed_at : Nat
  deriving DecidableEq

/-- One iteration body of `process_and_save_countries` from
`src/core/logic.py`, computing the field set to store: the rate defaults
to `1.0` on a lookup miss (`exchange_data.get(currency_code, 1.0)`), and
the GDP is `population * exchange_rate * random.uniform(0.5, 1.5)` when
the rate is truthy and the population is present, else `None`.  A
malformed currencies element raises out of the whole loop. -/
def lProcessRecord (rates : Rates) (ts : Nat) (mult : ℚ) (r : RawCountry) :
    Except Unit LRow :=
  match firstCurrencyCode r.currencies with
  | Except.error () => Except.error ()
  | Except.ok ccode =>
    let rate : ℚ :=
      match ccode with
      | some c => (lookupRate rates c).getD 1
      | none => 1
    let gdp : Option ℚ :=
      match r.population with
      | some p => if rate ≠ 0 then some (p * rate * mult) else none
      | none => none
    Except.ok
      { name := r.name, population := r.population, currency_code := ccode,
        capital := r.capital, region := r.region, exchange_rate := some rate,
        estimated_gdp := gdp, flag_url := r.flag, last_refreshed_at := ts }

/-- The `logic.py` session state during one refresh transaction, with the
same `autoflush=False` reading as `MSession`. -/
structure LSession where
  base : List LRow
  mods : List (Nat × LRow)
  inserts : List LRow
  deriving DecidableEq

/-- Flush of the pending updates of `logic.py`: an update assigns every
field including `name`, so the staged row replaces the committed one
entirely. -/
def lApplyModsFrom (mods : List (Nat × LRow)) : Nat → List LRow → List LRow
  | _, [] => []
  | i, r :: rs =>
    (match (mods.find? (fun p => p.1 == i)).map Prod.snd with
      | some m => m
      | none => r) :: lApplyModsFrom mods (i + 1) rs

/-- Flushed view of the committed rows under the pending updates of the session. -/
def lApplyMods (base : List LRow) (mods : List (Nat × LRow)) : List LRow :=
  lApplyModsFrom mods 0 base

/-- The loop of `process_and_save_countries`: exact, case-sensitive name
lookup (`Country.name == country_name`; a SQL comparison with NULL matches
nothing), updates counted separately from inserts, and any per-record
exception propagates out of the loop. -/
def lLoop (rates : Rates) (ts : Nat) (mult : Nat → ℚ) :
    List RawCountry → Nat → LSession → Except Unit (LSession × Nat × Nat)
  | [], _, sess => Except.ok (sess, 0, 0)
  | r :: rest, idx, sess =>
    match lProcessRecord rates ts (mult idx) r with
    | Except.error () => Except.error ()
    | Except.ok row =>
      let found : Option Nat :=
        match row.name with
        | none => none
        | some s => sess.base.findIdx? (fun b => b.name == some s)
      match found with
      | some i =>
        match lLoop rates ts mult rest (idx + 1) { sess with mods := (i, row) :: sess.mods } with
        | Except.error () => Except.error ()
        | Except.ok (s, u, n) => Except.ok (s, u + 1, n)
      | none =>
        match lLoop rates ts mult rest (idx + 1) { sess with inserts := sess.inserts ++ [row] } with
        | Except.error () => Except.error ()
        | Except.ok (s, u, n) => Except.ok (s, u, n + 1)

/-- Commit of the `logic.py` session: the NOT NULL constraints of the
`Country` model reject any flushed row missing a name or population, in
which case the whole transaction rolls back (`none`). -/
def lCommit (sess : LSession) : Option (List LRow) :=
  let written := sess.mods.map Prod.snd ++ sess.inserts
  if ∀ w ∈ written, w.name.isSome ∧ w.population.isSome
  then some (lApplyMods sess.base sess.mods ++ sess.inserts)
  else none

/-- Embedding of `update_global_status`: the `api_status` rows in `id`
order, each carrying its `last_updated` stamp; create the row if the table
is empty, else overwrite the timestamp of the first row. -/
def update_global_status (status : List Nat) (ts : Nat) : List Nat :=
  match status with
  | [] => [ts]
  | _ :: rest => ts :: rest

/-- The persistent state touched by the `logic.py` refresh script: the
`countries` table and the `api_status` table. -/
structure LState where
  countries : List LRow
  status : List Nat
  deriving DecidableEq

/-- Outcome of one run of `refresh_main`. -/
inductive LOutcome where
  | abortedEmpty
  | fatal
  | success (updates inserts total : Nat)
  deriving DecidableEq

/-- Embedding of `refresh_main` from `src/core/logic.py`.
`fetch_external_data` swallows fetch errors, yielding an empty rates
mapping or an empty countries list; the cycle aborts (zero writes) only
when the countries list is empty.  Otherwise the country upserts, the
status upsert and the (stale, pre-flush) total count run in one
transaction that commits entirely or rolls back entirely. -/
def lRefresh (ratesOk countriesOk : Bool) (rates : Rates)
    (countries : List RawCountry) (ts : Nat) (mult : Nat → ℚ)
    (st : LState) : LState × LOutcome :=
  let exchange_data := if ratesOk then rates else []
  let countries_data := if countriesOk then countries else []
  if countries_data.isEmpty then (st, LOutcome.abortedEmpty)
  else
    match lLoop exchange_data ts mult countries_data 0 ⟨st.countries, [], []⟩ with
    | Except.error () => (st, LOutcome.fatal)
    | Except.ok (sess, u, n) =>
      match lCommit sess with
      | none => (st, LOutcome.fatal)
      | some rows =>
        ({ countries := rows, status := update_global_status st.status ts },
         LOutcome.success u n st.countries.length)

/-! ## Read API embedding (`src/api/endpoints/country.py`)

The router endpoints operate on the `Country` model of `src/models.py`
(`LRow`).  `ilike` is evaluated by the default SQLite backend as
case-insensitive (ASCII) `LIKE`: `%` matches any substring, `_` matches
any single character, and there is no escape character. -/

/-- SQL `LIKE` pattern matching, case-insensitive, by structural recursion
on an explicit fuel counter; every step consumes at least one pattern or
subject character, so fuel `|pattern| + |subject| + 1` never runs out. -/
def ilikeFuel : Nat → List Char → List Char → Bool
  | 0, _, _ => false
  | _ + 1, [], [] => true
  | _ + 1, [], _ :: _ => false
  | f + 1, '%' :: ps, [] => ilikeFuel f ps []
  | f + 1, '%' :: ps, c :: s => ilikeFuel f ps (c :: s) || ilikeFuel f ('%' :: ps) s
  | _ + 1, '_' :: _, [] => false
  | f + 1, '_' :: ps, _ :: s => ilikeFuel f ps s
  | _ + 1, _ :: _, [] => false
  | f + 1, q :: ps, c :: s => (q.toLower == c.toLower) && ilikeFuel f ps s

/-- The `ilike` operator applied to whole strings. -/
def ilike (pat s : String) : Bool :=
  ilikeFuel (pat.toList.length + s.toList.length + 1) pat.toList s.toList

/-- The region filter of `read_countries`:
`Country.region.ilike(f"%{region}%")`, applied only when the query
parameter is truthy; a NULL stored region matches nothing. -/
def regionFilter (region : Option String) (rows : List LRow) : List LRow :=
  match region with
  | none => rows
  | some reg =>
    if reg = "" then rows
    else
      rows.filter (fun r =>
        match r.region with
        | none => false
        | some s => ilike ("%" ++ reg ++ "%") s)

/-- Insertion into a sorted list under a boolean comparison. -/
def insertSorted (le : LRow → LRow → Bool) (x : LRow) : List LRow → List LRow
  | [] => [x]
  | y :: ys => if le x y then x :: y :: ys else y :: insertSorted le x ys

/-- Insertion sort under a boolean comparison, modelling `ORDER BY`. -/
def sortRows (le : LRow → LRow → Bool) : List LRow → List LRow
  | [] => []
  | x :: xs => insertSorted le x (sortRows le xs)

/-- SQLite ordering on nullable strings: NULL sorts before every value. -/
def optStrLe : Option String → Option String → Bool
  | none, _ => true
  | some _, none => false
  | some a, some b => a ≤ b

/-- SQLite descending order on nullable integers (NULL is smallest, so it
sorts last under `DESC`). -/
def optIntGe : Option Int → Option Int → Bool
  | _, none => true
  | none, some _ => false
  | some a, some b => b ≤ a

/-- SQLite descending order on nullable rationals. -/
def optRatGe : Option ℚ → Option ℚ → Bool
  | _, none => true
  | none, some _ => false
  | some a, some b => b ≤ a

/-- The sorting step of `read_countries`: `name` ascending, `population`
or `estimated_gdp` descending, any other `sort_by` value (including
`None`) leaves the order unchanged. -/
def sortCountries (sort_by : Option String) (rows : List LRow) : List LRow :=
  match sort_by with
  | some "name" => sortRows (fun a b => optStrLe a.name b.name) rows
  | some "population" => sortRows (fun a b => optIntGe a.population b.population) rows
  | some "estimated_gdp" => sortRows (fun a b => optRatGe a.estimated_gdp b.estimated_gdp) rows
  | _ => rows

/-- Embedding of the `read_countries` endpoint: filter, sort, then
`offset(skip).limit(limit)` (SQLite treats a negative offset as zero and a
negative limit as no limit); an empty page with `skip > 0` raises the 404
"No more countries found in this range". -/
def read_countries (skip limit : Int) (region : Option String)
    (sort_by : Option String) (rows : List LRow) : Except Unit (List LRow) :=
  let filtered := regionFilter region rows
  let sorted := sortCountries sort_by filtered
  let afterSkip := sorted.drop skip.toNat
  let page := if limit < 0 then afterSkip else afterSkip.take limit.toNat
  if page.isEmpty ∧ 0 < skip then Except.error () else Except.ok page

/-- Name match of the single-country endpoint:
`Country.name.ilike(country_name)` on the raw path parameter; a NULL
stored name matches nothing. -/
def nameMatches (pat : String) (r : LRow) : Bool :=
  match r.name with
  | none => false
  | some n => ilike pat n

/-- Embedding of the `read_country_by_name` endpoint: first row whose name
matches the raw path parameter under `ilike`, else the 404 error. -/
def read_country_by_name (pat : String) (rows : List LRow) : Except Unit LRow :=
  match rows.find? (fun r => nameMatches pat r) with
  | some r => Except.ok r
  | none => Except.error ()

/-! ## Concrete fixtures -/

/-- A well-formed fetched record with a currency code. -/
def smallRaw : RawCountry :=
  { name := some "Testland", capital := none, region := none,
    population := some 1000, flag := none,
    currencies := some [CurrencyEntry.entry (some "ZZZ")] }

/-- A fetched record with no currencies array. -/
def noCurrencyRaw : RawCountry :=
  { name := some "Chad", capital := none, region := none,
    population := some 1000, flag := none, currencies := none }

/-- A fetched record missing its name. -/
def noNameRaw : RawCountry :=
  { name := none, capital := none, region := none,
    population := some 50, flag := none, currencies := none }

/-- A fetched record whose first currencies element is not an object, so
reading its `code` raises. -/
def malformedRaw : RawCountry :=
  { name := some "Badland", capital := none, region := none,
    population := some 10, flag := none,
    currencies := some [CurrencyEntry.malformed] }

/-- First occurrence of the duplicated-name scenario. -/
def chadRaw : RawCountry :=
  { name := some "Chad", capital := none, region := none,
    population := some 100, flag := none, currencies := none }

/-- Second occurrence of the duplicated-name scenario, casing differing. -/
def chadUpperRaw : RawCountry :=
  { name := some "CHAD", capital := none, region := none,
    population := some 200, flag := none, currencies := none }

/-- A prior state whose status table holds one row stamped 5. -/
def priorState : LState := { countries := [], status := [5] }

/-- The `main.py` row produced for `noCurrencyRaw` at timestamp 7. -/
def chadNoCurrencyMRow : MRow :=
  { name := "Chad", capital := none, region := none, population := 1000,
    currency_code := none, exchange_rate := none, estimated_gdp := some 0,
    flag_url := none, last_refreshed_at := 7 }

/-! ## C1 -/

/-- C1 (counterexample): in `refresh_main` of `src/core/logic.py`, a
failed rates fetch (empty rate mapping) with a successful non-empty
countries fetch does not abort: starting from a state with status stamp 5
and no rows, the cycle writes one country row and advances the status
stamp to the cycle timestamp 7, so the zero-write abort the claim states is false
for a rates-fetch failure. -/
theorem rates_failure_still_writes :
    (lRefresh false true [("ZZZ", 2)] [smallRaw] 7 (fun _ => 1) priorState).1.status = [7] ∧
    (lRefresh false true [("ZZZ", 2)] [smallRaw] 7 (fun _ => 1) priorState).1.countries.length = 1 ∧
    priorState.status = [5] ∧ priorState.countries = [] :=
  ⟨by decide, by decide, rfl, rfl⟩

/-- C1 (amended): in `refresh_main`, if the countries fetch fails or
returns an empty list, the cycle aborts and performs zero database
writes: the state (country rows and status stamp) is returned unchanged.
A rates-only failure does not abort; it proceeds with an empty rate
mapping. -/
theorem countries_fetch_abort_zero_writes (ratesOk countriesOk : Bool)
    (rates : Rates) (countries : List RawCountry) (ts : Nat) (mult : Nat → ℚ)
    (st : LState) (h : countriesOk = false ∨ countries = []) :
    (lRefresh ratesOk countriesOk rates countries ts mult st).1 = st ∧
    (lRefresh ratesOk countriesOk rates countries ts mult st).2 = LOutcome.abortedEmpty := by
  rcases h with h | h <;> subst h <;> simp [lRefresh]

/-- Witness for `countries_fetch_abort_zero_writes` at a concrete input. -/
theorem countries_fetch_abort_zero_writes_witness :
    (lRefresh true false [] [smallRaw] 7 (fun _ => 1) priorState).1 = priorState ∧
    (lRefresh true false [] [smallRaw] 7 (fun _ => 1) priorState).2 = LOutcome.abortedEmpty :=
  countries_fetch_abort_zero_writes true false [] [smallRaw] 7 (fun _ => 1) priorState (Or.inl rfl)

/-! ## C2 -/

/-- Helper: the status upsert yields exactly one row from any table with
at most one row. -/
theorem update_global_status_singleton (status : List Nat) (ts : Nat)
    (h : status.length ≤ 1) : update_global_status status ts = [ts] := by
  match status with
  | [] => rfl
  | [_] => rfl
  | _ :: _ :: _ => simp at h

/-- Helper: every run of `refresh_main` either aborts with the state
unchanged, fails fatally with the state rolled back, or commits new
country rows together with the status upsert at the cycle timestamp. -/
theorem lRefresh_shape (ratesOk countriesOk : Bool) (rates : Rates)
    (countries : List RawCountry) (ts : Nat) (mult : Nat → ℚ) (st : LState) :
    lRefresh ratesOk countriesOk rates countries ts mult st = (st, LOutcome.abortedEmpty) ∨
    lRefresh ratesOk countriesOk rates countries ts mult st = (st, LOutcome.fatal) ∨
    ∃ rows u n,
      lRefresh ratesOk countriesOk rates countries ts mult st =
        ({ countries := rows, status := update_global_status st.status ts },
         LOutcome.success u n st.countries.length) := by
  unfold lRefresh
  dsimp only
  generalize (if countriesOk = true then countries else []) = cd
  generalize (if ratesOk = true then rates else []) = ed
  split
  · exact Or.inl rfl
  · split
    · exact Or.inr (Or.inl rfl)
    · split
      · exact Or.inr (Or.inl rfl)
      · exact Or.inr (Or.inr ⟨_, _, _, rfl⟩)

/-- C2: the status record of `logic.py` is a create-if-absent-else-update
singleton: starting from at most one status row, a successful refresh
leaves exactly one status row carrying the cycle timestamp, and any
aborted or fatal cycle leaves the whole state (country rows and status)
unchanged — the status advances in the same transaction as the country
upserts or not at all. -/
theorem status_singleton_atomic (ratesOk countriesOk : Bool) (rates : Rates)
    (countries : List RawCountry) (ts : Nat) (mult : Nat → ℚ) (st : LState)
    (hst : st.status.length ≤ 1) :
    (∀ u n t, (lRefresh ratesOk countriesOk rates countries ts mult st).2 =
        LOutcome.success u n t →
      (lRefresh ratesOk countriesOk rates countries ts mult st).1.status = [ts]) ∧
    ((lRefresh ratesOk countriesOk rates countries ts mult st).2 = LOutcome.abortedEmpty ∨
        (lRefresh ratesOk countriesOk rates countries ts mult st).2 = LOutcome.fatal →
      (lRefresh ratesOk countriesOk rates countries ts mult st).1 = st) := by
  rcases lRefresh_shape ratesOk countriesOk rates countries ts mult st with h | h | ⟨rows, u, n, h⟩ <;>
    rw [h]
  · exact ⟨fun u n t hh => by simp at hh, fun _ => rfl⟩
  · exact ⟨fun u n t hh => by simp at hh, fun _ => rfl⟩
  · refine ⟨fun u₁ n₁ t₁ _ => update_global_status_singleton st.status ts hst, ?_⟩
    rintro (hh | hh) <;> simp at hh

/-- Witness for `status_singleton_atomic` at a concrete input. -/
theorem status_singleton_atomic_witness :
    (lRefresh true true [] [smallRaw] 7 (fun _ => 1) (LState.mk [] [])).1.status = [7] :=
  (status_singleton_atomic true true [] [smallRaw] 7 (fun _ => 1)
    (LState.mk [] []) (by decide)).1 0 1 0 (by decide)

/-! ## C3 -/

/-- C3 (counterexample): in the `logic.py` pipeline, a record whose
currency_code resolves to null is stored with an estimated GDP computed
from the defaulted exchange rate 1.0 and the random multiplier — with
multiplier 2 the stored value is 2000, with multiplier 3 it is 3000 —
never the deterministic zero sentinel the claim requires. -/
theorem null_currency_gdp_randomized :
    ((lRefresh true true [] [noCurrencyRaw] 7 (fun _ => 2)
        (LState.mk [] [])).1.countries.map LRow.estimated_gdp = [some 2000]) ∧
    ((lRefresh true true [] [noCurrencyRaw] 7 (fun _ => 3)
        (LState.mk [] [])).1.countries.map LRow.estimated_gdp = [some 3000]) := by
  constructor <;>
    · simp [lRefresh, lLoop, lProcessRecord, firstCurrencyCode, lookupRate, lCommit,
        lApplyMods, lApplyModsFrom, update_global_status, noCurrencyRaw]
      norm_num

/-- C3 (amended): when the currency code resolves to null, the
`main.py` endpoint stores the deterministic sentinel 0 as estimated GDP,
while the `logic.py` script defaults the exchange rate to 1.0 and stores
population multiplied by the random multiplier (or null when the
population is missing). -/
theorem null_currency_gdp_by_variant (rates : Rates) (ts : Nat) (mult : ℚ)
    (r : RawCountry) (hc : firstCurrencyCode r.currencies = Except.ok none) :
    (∀ row : MRow, mProcessRecord rates ts mult r = Except.ok (some row) →
      row.estimated_gdp = some 0) ∧
    (∀ row : LRow, lProcessRecord rates ts mult r = Except.ok row →
      row.exchange_rate = some 1 ∧
      row.estimated_gdp = r.population.map (fun p => (p : ℚ) * 1 * mult)) := by
  constructor
  · intro row h
    match hn : r.name with
    | none => simp [mProcessRecord, hn] at h
    | some nm =>
      by_cases he : nm = ""
      · simp [mProcessRecord, hn, he] at h
      · by_cases hp : r.population.getD 0 = 0
        · simp [mProcessRecord, hn, he, hp] at h
        · simp only [mProcessRecord, hn, he, hp, hc, truthyStr, if_neg, if_false,
            Bool.false_eq_true, ite_false, Except.ok.injEq, Option.some.injEq] at h
          rw [← h]
  · intro row h
    unfold lProcessRecord at h
    rw [hc] at h
    simp only [Except.ok.injEq] at h
    subst h
    refine ⟨rfl, ?_⟩
    cases r.population <;> simp

/-- Witness for `null_currency_gdp_by_variant` at a concrete input. -/
theorem null_currency_gdp_by_variant_witness :
    (mProcessRecord [] 7 2 noCurrencyRaw = Except.ok (some chadNoCurrencyMRow)) ∧
    chadNoCurrencyMRow.estimated_gdp = some 0 :=
  ⟨rfl, (null_currency_gdp_by_variant [] 7 2 noCurrencyRaw rfl).1 chadNoCurrencyMRow rfl⟩

/-! ## C6 -/

/-- C6 (counterexample): `calculate_gdp` of `main.py` does not sentinel on
a non-positive exchange rate: at rate -2 (negative, hence non-positive)
with population 1000 and multiplier 1500 it returns the computed value
-750000 instead of the sentinel. -/
theorem negative_rate_computes_gdp :
    calculate_gdp 1000 (some (-2)) 1500 = some (-750000) ∧ ((-2 : ℚ) < 0) := by
  constructor
  · simp [calculate_gdp]
    norm_num
  · norm_num

/-- C6 (amended): `calculate_gdp` returns the sentinel (null) exactly when
the exchange rate is null or equals zero; for every nonzero rate,
including negative ones, it returns population times the multiplier
divided by the rate; being a total function it never raises. -/
theorem calculate_gdp_sentinel_iff (population : Int) (mult : ℚ) :
    calculate_gdp population none mult = none ∧
    calculate_gdp population (some 0) mult = none ∧
    (∀ r : ℚ, r ≠ 0 →
      calculate_gdp population (some r) mult = some (((population : ℚ) * mult) / r)) := by
  refine ⟨rfl, by simp [calculate_gdp], fun r hr => by simp [calculate_gdp, hr]⟩

/-- Witness for `calculate_gdp_sentinel_iff` at a concrete input. -/
theorem calculate_gdp_sentinel_iff_witness :
    calculate_gdp 5 none 3 = none ∧ calculate_gdp 5 (some 0) 3 = none ∧
    calculate_gdp 5 (some 2) 3 = some (((5 : Int) : ℚ) * 3 / 2) :=
  ⟨(calculate_gdp_sentinel_iff 5 3).1, (calculate_gdp_sentinel_iff 5 3).2.1,
   (calculate_gdp_sentinel_iff 5 3).2.2 2 (by norm_num)⟩

/-! ## C7 -/

/-- C7 (counterexample): in the `logic.py` pipeline a record missing its
name is not skipped: it is staged for insert, the commit-time NOT NULL
constraint fails, and the whole cycle rolls back, so the valid remaining
record is not stored either — starting from the prior state, the final
state is unchanged and the outcome is fatal, not a state containing
the remaining record. -/
theorem missing_name_poisons_logic_cycle :
    (lRefresh true true [] [noNameRaw, smallRaw] 7 (fun _ => 1) priorState).1 = priorState ∧
    (lRefresh true true [] [noNameRaw, smallRaw] 7 (fun _ => 1) priorState).2 = LOutcome.fatal :=
  ⟨by decide, by decide⟩

/-- C7 (amended): in the `main.py` refresh loop, a record with a falsy
name or a falsy (missing or zero) population is skipped — the loop over
the remaining records proceeds from an unchanged session, so the record
causes no insert and no update and the rest are still processed.  The
`logic.py` variant performs no such skip. -/
theorem main_skips_invalid_records (rates : Rates) (ts : Nat) (mult : Nat → ℚ)
    (r : RawCountry) (rest : List RawCountry) (idx : Nat) (sess : MSession)
    (h : r.name = none ∨ r.name = some "" ∨ r.population.getD 0 = 0) :
    mLoop rates ts mult (r :: rest) idx sess = mLoop rates ts mult rest (idx + 1) sess := by
  have hp : mProcessRecord rates ts (mult idx) r = Except.ok none := by
    rcases h with h | h | h
    · simp [mProcessRecord, h]
    · simp [mProcessRecord, h]
    · match hn : r.name with
      | none => simp [mProcessRecord, hn]
      | some nm =>
        by_cases he : nm = ""
        · simp [mProcessRecord, hn, he]
        · simp [mProcessRecord, hn, he, h]
  simp [mLoop, hp]

/-- Witness for `main_skips_invalid_records` at a concrete input. -/
theorem main_skips_invalid_records_witness :
    mLoop [] 7 (fun _ => 1) [noNameRaw] 0 (MSession.mk [] [] []) =
      mLoop [] 7 (fun _ => 1) [] 1 (MSession.mk [] [] []) :=
  main_skips_invalid_records [] 7 (fun _ => 1) noNameRaw [] 0
    (MSession.mk [] [] []) (Or.inl rfl)

/-! ## C8 -/

/-- C8 (counterexample): in the `logic.py` pipeline a per-record failure
(malformed currencies element) aborts the whole cycle: the remaining valid
record is not processed, nothing is written, and no aggregate error list
is produced — the outcome is fatal with the state rolled back. -/
theorem record_error_aborts_logic_cycle :
    lRefresh true true [] [malformedRaw, smallRaw] 7 (fun _ => 1) priorState =
      (priorState, LOutcome.fatal) := by decide

/-- C8 (amended): in the `main.py` refresh loop a failure while processing
a single record is caught: the record is dropped and the loop continues
over the remaining records from an unchanged session (the endpoint then
returns only a processed count; neither variant returns an aggregate
per-record error list, and in `logic.py` such a failure aborts the
cycle). -/
theorem main_isolates_record_errors (rates : Rates) (ts : Nat) (mult : Nat → ℚ)
    (r : RawCountry) (rest : List RawCountry) (idx : Nat) (sess : MSession)
    (h : firstCurrencyCode r.currencies = Except.error ()) :
    mLoop rates ts mult (r :: rest) idx sess = mLoop rates ts mult rest (idx + 1) sess := by
  have hp : mProcessRecord rates ts (mult idx) r = Except.error () ∨
      mProcessRecord rates ts (mult idx) r = Except.ok none := by
    match hn : r.name with
    | none => right; simp [mProcessRecord, hn]
    | some nm =>
      by_cases he : nm = ""
      · right; simp [mProcessRecord, hn, he]
      · by_cases hpop : r.population.getD 0 = 0
        · right; simp [mProcessRecord, hn, he, hpop]
        · left; simp [mProcessRecord, hn, he, hpop, h]
  rcases hp with hp | hp <;> simp [mLoop, hp]

/-- Witness for `main_isolates_record_errors` at a concrete input. -/
theorem main_isolates_record_errors_witness :
    mLoop [] 7 (fun _ => 1) [malformedRaw] 0 (MSession.mk [] [] []) =
      mLoop [] 7 (fun _ => 1) [] 1 (MSession.mk [] [] []) :=
  main_isolates_record_errors [] 7 (fun _ => 1) malformedRaw [] 0
    (MSession.mk [] [] []) rfl

/-! ## C5 infrastructure -/

/-- Helper: every row the `main.py` loop stages carries the cycle
timestamp. -/
theorem mProcessRecord_ts {rates : Rates} {ts : Nat} {mult : ℚ} {r : RawCountry}
    {row : MRow} (h : mProcessRecord rates ts mult r = Except.ok (some row)) :
    row.last_refreshed_at = ts := by
  match hn : r.name with
  | none => simp [mProcessRecord, hn] at h
  | some nm =>
    by_cases he : nm = ""
    · simp [mProcessRecord, hn, he] at h
    · by_cases hp : r.population.getD 0 = 0
      · simp [mProcessRecord, hn, he, hp] at h
      · match hcc : firstCurrencyCode r.currencies with
        | Except.error () => simp [mProcessRecord, hn, he, hp, hcc] at h
        | Except.ok ccode =>
          simp only [mProcessRecord, hn, he, hp, hcc, if_neg, ite_false,
            Except.ok.injEq, Option.some.injEq] at h
          rw [← h]

/-- Helper: an upsert step never touches the committed rows. -/
theorem mStep_base (sess : MSession) (row : MRow) :
    (mStep sess row).base = sess.base := by
  unfold mStep; split <;> rfl

/-- Helper: an upsert step only prepends the staged row to the update map. -/
theorem mStep_mods (sess : MSession) (row : MRow) :
    ∀ im ∈ (mStep sess row).mods, im ∈ sess.mods ∨ im.2 = row := by
  unfold mStep; split
  · intro im him
    rcases List.mem_cons.mp him with h | h
    · right; rw [h]
    · left; exact h
  · intro im him; left; exact him

/-- Helper: an upsert step only appends the staged row to the pending
inserts. -/
theorem mStep_inserts (sess : MSession) (row : MRow) :
    ∀ x ∈ (mStep sess row).inserts, x ∈ sess.inserts ∨ x = row := by
  unfold mStep; split
  · intro x hx; left; exact hx
  · intro x hx
    rcases List.mem_append.mp hx with h | h
    · left; exact h
    · right; simpa using h

/-- Helper: the `main.py` loop never touches the committed rows, and every
update and insert it stages carries the cycle timestamp. -/
theorem mLoop_state (rates : Rates) (ts : Nat) (mult : Nat → ℚ) :
    ∀ (records : List RawCountry) (idx : Nat) (sess : MSession),
    (mLoop rates ts mult records idx sess).1.base = sess.base ∧
    (∀ im ∈ (mLoop rates ts mult records idx sess).1.mods,
      im ∈ sess.mods ∨ im.2.last_refreshed_at = ts) ∧
    (∀ x ∈ (mLoop rates ts mult records idx sess).1.inserts,
      x ∈ sess.inserts ∨ x.last_refreshed_at = ts) := by
  intro records
  induction records with
  | nil =>
    intro idx sess
    exact ⟨rfl, fun im him => Or.inl him, fun x hx => Or.inl hx⟩
  | cons r rest ih =>
    intro idx sess
    match hp : mProcessRecord rates ts (mult idx) r with
    | Except.ok (some row) =>
      have hts := mProcessRecord_ts hp
      simp only [mLoop, hp]
      obtain ⟨hb, hm, hi⟩ := ih (idx + 1) (mStep sess row)
      refine ⟨by rw [hb, mStep_base], ?_, ?_⟩
      · intro im him
        rcases hm im him with h | h
        · rcases mStep_mods sess row im h with h2 | h2
          · exact Or.inl h2
          · right; rw [h2]; exact hts
        · exact Or.inr h
      · intro x hx
        rcases hi x hx with h | h
        · rcases mStep_inserts sess row x h with h2 | h2
          · exact Or.inl h2
          · right; rw [h2]; exact hts
        · exact Or.inr h
    | Except.ok none => simpa only [mLoop, hp] using ih (idx + 1) sess
    | Except.error () => simpa only [mLoop, hp] using ih (idx + 1) sess

/-- Helper: a flushed `main.py` row is either an untouched committed row
or one staged this cycle (whose timestamp is the cycle timestamp). -/
theorem mApplyModsFrom_mem {ts : Nat} (mods : List (Nat × MRow))
    (hm : ∀ im ∈ mods, im.2.last_refreshed_at = ts) :
    ∀ (i : Nat) (base : List MRow), ∀ x ∈ mApplyModsFrom mods i base,
      x ∈ base ∨ x.last_refreshed_at = ts := by
  intro i base
  induction base generalizing i with
  | nil => intro x hx; cases hx
  | cons b bs ih =>
    intro x hx
    rcases List.mem_cons.mp hx with h | h
    · match hf : (mods.find? (fun p : Nat × MRow => p.1 == i)).map Prod.snd with
      | some m =>
        right
        rw [h]
        rcases Option.map_eq_some'.mp hf with ⟨im, hfind, hsnd⟩
        have := hm im (List.mem_of_find?_eq_some hfind)
        show (match (mods.find? (fun p : Nat × MRow => p.1 == i)).map Prod.snd with
          | some m => { m with name := b.name }
          | none => b).last_refreshed_at = ts
        rw [hf, ← hsnd]
        exact this
      | none =>
        left
        rw [h]
        show (match (mods.find? (fun p : Nat × MRow => p.1 == i)).map Prod.snd with
          | some m => { m with name := b.name }
          | none => b) ∈ b :: bs
        rw [hf]
        exact List.mem_cons_self b bs
    · rcases ih (i + 1) x h with h2 | h2
      · exact Or.inl (List.mem_cons_of_mem b h2)
      · exact Or.inr h2

/-- Helper: a successful commit flushes exactly the updates over the
committed rows followed by the pending inserts. -/
theorem mCommit_eq_some {sess : MSession} {rows : List MRow}
    (h : mCommit sess = some rows) :
    rows = mApplyMods sess.base sess.mods ++ sess.inserts := by
  unfold mCommit at h
  dsimp only at h
  split at h
  · exact (Option.some.inj h).symm
  · cases h

/-- Helper: after the `main.py` refresh endpoint, every stored row is
either a pre-existing row untouched this cycle or carries the cycle
timestamp. -/
theorem mRefresh_rows_mem (countriesFetch : Except Unit (List RawCountry))
    (ratesFetch : Except Unit Rates) (ts : Nat) (mult : Nat → ℚ) (db : List MRow) :
    ∀ x ∈ (mRefresh countriesFetch ratesFetch ts mult db).1,
      x ∈ db ∨ x.last_refreshed_at = ts := by
  match countriesFetch with
  | Except.error () => intro x hx; exact Or.inl hx
  | Except.ok countries =>
    match ratesFetch with
    | Except.error () => intro x hx; exact Or.inl hx
    | Except.ok rates =>
      intro x hx
      have hstate := mLoop_state rates ts mult countries 0 ⟨db, [], []⟩
      revert hx
      show x ∈ (match mCommit (mLoop rates ts mult countries 0 ⟨db, [], []⟩).1 with
        | none => (db, MOutcome.internalError)
        | some rows =>
          (rows, MOutcome.success (mLoop rates ts mult countries 0 ⟨db, [], []⟩).2
            rows.length)).1 → x ∈ db ∨ x.last_refreshed_at = ts
      match hc : mCommit (mLoop rates ts mult countries 0 ⟨db, [], []⟩).1 with
      | none => intro hx; exact Or.inl hx
      | some rows =>
        intro hx
        rw [mCommit_eq_some hc] at hx
        obtain ⟨hb, hm, hi⟩ := hstate
        rcases List.mem_append.mp hx with h | h
        · rw [mApplyMods, hb] at h
          have hmods : ∀ im ∈ (mLoop rates ts mult countries 0
              ⟨db, [], []⟩).1.mods, im.2.last_refreshed_at = ts := by
            intro im him
            rcases hm im him with h2 | h2
            · cases h2
            · exact h2
          exact mApplyModsFrom_mem _ hmods 0 db x h
        · rcases hi x h with h2 | h2
          · cases h2
          · exact Or.inr h2

/-- Helper: every row the `logic.py` loop stages carries the cycle
timestamp. -/
theorem lProcessRecord_ts {rates : Rates} {ts : Nat} {mult : ℚ} {r : RawCountry}
    {row : LRow} (h : lProcessRecord rates ts mult r = Except.ok row) :
    row.last_refreshed_at = ts := by
  match hcc : firstCurrencyCode r.currencies with
  | Except.error () => simp [lProcessRecord, hcc] at h
  | Except.ok ccode =>
    simp only [lProcessRecord, hcc, Except.ok.injEq] at h
    rw [← h]

/-- Helper: the `logic.py` loop never touches the committed rows, and
every update and insert it stages carries the cycle timestamp. -/
theorem lLoop_state (rates : Rates) (ts : Nat) (mult : Nat → ℚ) :
    ∀ (records : List RawCountry) (idx : Nat) (sess : LSession)
      (out : LSession × Nat × Nat),
    lLoop rates ts mult records idx sess = Except.ok out →
    out.1.base = sess.base ∧
    (∀ im ∈ out.1.mods, im ∈ sess.mods ∨ im.2.last_refreshed_at = ts) ∧
    (∀ x ∈ out.1.inserts, x ∈ sess.inserts ∨ x.last_refreshed_at = ts) := by
  intro records
  induction records with
  | nil =>
    intro idx sess out h
    rw [show lLoop rates ts mult [] idx sess = Except.ok (sess, 0, 0) from rfl] at h
    rw [← Except.ok.inj h]
    exact ⟨rfl, fun im him => Or.inl him, fun x hx => Or.inl hx⟩
  | cons r rest ih =>
    intro idx sess out h
    match hp : lProcessRecord rates ts (mult idx) r with
    | Except.error () => rw [lLoop, hp] at h; cases h
    | Except.ok row =>
      have hts := lProcessRecord_ts hp
      rw [lLoop, hp] at h
      dsimp only at h
      rcases hrn : row.name with _ | s
      · rw [hrn] at h
        dsimp only at h
        match hrec : lLoop rates ts mult rest (idx + 1)
            { sess with inserts := sess.inserts ++ [row] } with
        | Except.error () => rw [hrec] at h; cases h
        | Except.ok (s2, u2, n2) =>
          rw [hrec] at h
          dsimp only at h
          rw [← Except.ok.inj h]
          obtain ⟨hb, hm, hi⟩ := ih (idx + 1) _ _ hrec
          refine ⟨hb, hm, ?_⟩
          intro x hx
          rcases hi x hx with h2 | h2
          · rcases List.mem_append.mp h2 with h3 | h3
            · exact Or.inl h3
            · right; rw [List.mem_singleton.mp h3]; exact hts
          · exact Or.inr h2
      · rw [hrn] at h
        dsimp only at h
        match hidx : sess.base.findIdx? (fun b : LRow => b.name == some s) with
        | some i =>
          rw [hidx] at h
          dsimp only at h
          match hrec : lLoop rates ts mult rest (idx + 1)
              { sess with mods := (i, row) :: sess.mods } with
          | Except.error () => rw [hrec] at h; cases h
          | Except.ok (s2, u2, n2) =>
            rw [hrec] at h
            dsimp only at h
            rw [← Except.ok.inj h]
            obtain ⟨hb, hm, hi⟩ := ih (idx + 1) _ _ hrec
            refine ⟨hb, ?_, hi⟩
            intro im him
            rcases hm im him with h2 | h2
            · rcases List.mem_cons.mp h2 with h3 | h3
              · right; rw [h3]; exact hts
              · exact Or.inl h3
            · exact Or.inr h2
        | none =>
          rw [hidx] at h
          dsimp only at h
          match hrec : lLoop rates ts mult rest (idx + 1)
              { sess with inserts := sess.inserts ++ [row] } with
          | Except.error () => rw [hrec] at h; cases h
          | Except.ok (s2, u2, n2) =>
            rw [hrec] at h
            dsimp only at h
            rw [← Except.ok.inj h]
            obtain ⟨hb, hm, hi⟩ := ih (idx + 1) _ _ hrec
            refine ⟨hb, hm, ?_⟩
            intro x hx
            rcases hi x hx with h2 | h2
            · rcases List.mem_append.mp h2 with h3 | h3
              · exact Or.inl h3
              · right; rw [List.mem_singleton.mp h3]; exact hts
            · exact Or.inr h2

/-- Helper: a flushed `logic.py` row is either an untouched committed row
or one staged this cycle (whose timestamp is the cycle timestamp). -/
theorem lApplyModsFrom_mem {ts : Nat} (mods : List (Nat × LRow))
    (hm : ∀ im ∈ mods, im.2.last_refreshed_at = ts) :
    ∀ (i : Nat) (base : List LRow), ∀ x ∈ lApplyModsFrom mods i base,
      x ∈ base ∨ x.last_refreshed_at = ts := by
  intro i base
  induction base generalizing i with
  | nil => intro x hx; cases hx
  | cons b bs ih =>
    intro x hx
    rcases List.mem_cons.mp hx with h | h
    · match hf : (mods.find? (fun p : Nat × LRow => p.1 == i)).map Prod.snd with
      | some m =>
        right
        rw [h]
        rcases Option.map_eq_some'.mp hf with ⟨im, hfind, hsnd⟩
        have := hm im (List.mem_of_find?_eq_some hfind)
        show (match (mods.find? (fun p : Nat × LRow => p.1 == i)).map Prod.snd with
          | some m => m
          | none => b).last_refreshed_at = ts
        rw [hf, ← hsnd]
        exact this
      | none =>
        left
        rw [h]
        show (match (mods.find? (fun p : Nat × LRow => p.1 == i)).map Prod.snd with
          | some m => m
          | none => b) ∈ b :: bs
        rw [hf]
        exact List.mem_cons_self b bs
    · rcases ih (i + 1) x h with h2 | h2
      · exact Or.inl (List.mem_cons_of_mem b h2)
      · exact Or.inr h2

/-- Helper: a successful `logic.py` commit flushes exactly the updates
over the committed rows followed by the pending inserts. -/
theorem lCommit_eq_some {sess : LSession} {rows : List LRow}
    (h : lCommit sess = some rows) :
    rows = lApplyMods sess.base sess.mods ++ sess.inserts := by
  unfold lCommit at h
  dsimp only at h
  split at h
  · exact (Option.some.inj h).symm
  · cases h

/-- Helper: after the `logic.py` refresh, every stored row is either a
pre-existing row untouched this cycle or carries the cycle timestamp. -/
theorem lRefresh_rows_mem (ratesOk countriesOk : Bool) (rates : Rates)
    (countries : List RawCountry) (ts : Nat) (mult : Nat → ℚ) (st : LState) :
    ∀ x ∈ (lRefresh ratesOk countriesOk rates countries ts mult st).1.countries,
      x ∈ st.countries ∨ x.last_refreshed_at = ts := by
  unfold lRefresh
  dsimp only
  generalize (if countriesOk = true then countries else []) = cd
  generalize (if ratesOk = true then rates else []) = ed
  split
  · intro x hx; exact Or.inl hx
  · match hrec : lLoop ed ts mult cd 0 ⟨st.countries, [], []⟩ with
    | Except.error () =>
      intro x hx
      exact Or.inl hx
    | Except.ok (sess, u, n) =>
      dsimp only
      match hc : lCommit sess with
      | none => intro x hx; exact Or.inl hx
      | some rows =>
        intro x hx
        rw [show (({ countries := rows, status := update_global_status st.status ts },
            LOutcome.success u n st.countries.length) : LState × LOutcome).1.countries
            = rows from rfl, lCommit_eq_some hc] at hx
        obtain ⟨hb, hm, hi⟩ := lLoop_state ed ts mult cd 0 _ _ hrec
        rcases List.mem_append.mp hx with h | h
        · rw [lApplyMods, hb] at h
          have hmods : ∀ im ∈ sess.mods, im.2.last_refreshed_at = ts := by
            intro im him
            rcases hm im him with h2 | h2
            · cases h2
            · exact h2
          exact lApplyModsFrom_mem _ hmods 0 st.countries x h
        · rcases hi x h with h2 | h2
          · cases h2
          · exact Or.inr h2

/-! ## C5 -/

/-- C5: in both refresh implementations, after a refresh cycle every row
that the cycle wrote or updated carries the single shared cycle
timestamp (taken once before processing): each stored row is either a
pre-existing row the cycle did not touch, or has `last_refreshed_at`
equal to the cycle timestamp. -/
theorem cycle_timestamp_shared (countriesFetch : Except Unit (List RawCountry))
    (ratesFetch : Except Unit Rates) (ratesOk countriesOk : Bool) (rates : Rates)
    (countries : List RawCountry) (ts : Nat) (mult : Nat → ℚ)
    (db : List MRow) (st : LState) :
    (∀ x ∈ (mRefresh countriesFetch ratesFetch ts mult db).1,
      x ∈ db ∨ x.last_refreshed_at = ts) ∧
    (∀ x ∈ (lRefresh ratesOk countriesOk rates countries ts mult st).1.countries,
      x ∈ st.countries ∨ x.last_refreshed_at = ts) :=
  ⟨mRefresh_rows_mem countriesFetch ratesFetch ts mult db,
   lRefresh_rows_mem ratesOk countriesOk rates countries ts mult st⟩

/-- Witness for `cycle_timestamp_shared` at a concrete input. -/
theorem cycle_timestamp_shared_witness :
    ∀ x ∈ (mRefresh (Except.ok [noCurrencyRaw]) (Except.ok []) 7 (fun _ => 1) []).1,
      x ∈ ([] : List MRow) ∨ x.last_refreshed_at = 7 :=
  (cycle_timestamp_shared (Except.ok [noCurrencyRaw]) (Except.ok []) true true []
    [] 7 (fun _ => 1) [] (LState.mk [] [])).1

/-! ## C4 -/

/-- C4 (counterexample): with an empty store, the batch "Chad" then
"CHAD" (differing casing) commits two stored rows, not one — the pending
insert of the first occurrence is invisible to the lookup of the second
occurrence because the session never flushes before commit
(`autoflush=False`). -/
theorem duplicate_casing_two_rows :
    (mRefresh (Except.ok [chadRaw, chadUpperRaw]) (Except.ok []) 7
        (fun _ => 1) []).1.length = 2 ∧
    (mRefresh (Except.ok [chadRaw, chadUpperRaw]) (Except.ok []) 7
        (fun _ => 1) []).1.map MRow.name = ["Chad", "CHAD"] :=
  ⟨by decide, by decide⟩

/-- The name a fetched record will be stored under, or `none` when the
record is skipped or raises; the write decision and the stored name are
independent of the cycle timestamp and the random multiplier. -/
def mProcessName : Except Unit (Option MRow) → Option String
  | Except.ok (some row) => some row.name
  | _ => none

/-- Canonical stored name of a fetched record under a rate mapping. -/
def mRecordName (rates : Rates) (r : RawCountry) : Option String :=
  mProcessName (mProcessRecord rates 0 1 r)

/-- Helper: the stored name does not depend on the timestamp or the
multiplier. -/
theorem mProcessName_const (rates : Rates) (ts : Nat) (mult : ℚ) (r : RawCountry) :
    mProcessName (mProcessRecord rates ts mult r) = mRecordName rates r := by
  unfold mRecordName
  match hn : r.name with
  | none => simp [mProcessRecord, hn, mProcessName]
  | some nm =>
    by_cases he : nm = ""
    · simp [mProcessRecord, hn, he, mProcessName]
    · by_cases hp : r.population.getD 0 = 0
      · simp [mProcessRecord, hn, he, hp, mProcessName]
      · match hcc : firstCurrencyCode r.currencies with
        | Except.error () => simp [mProcessRecord, hn, he, hp, hcc, mProcessName]
        | Except.ok ccode => simp [mProcessRecord, hn, he, hp, hcc, mProcessName]

/-- Helper: a staged row determines the canonical record name. -/
theorem mRecordName_of_ok {rates : Rates} {ts : Nat} {mult : ℚ} {r : RawCountry}
    {row : MRow} (h : mProcessRecord rates ts mult r = Except.ok (some row)) :
    mRecordName rates r = some row.name := by
  rw [← mProcessName_const rates ts mult r, h]
  rfl

/-- Lowercased stored name, the key of the case-insensitive lookup. -/
def lowerName (b : MRow) : String := b.name.toLower

/-- The lowercased names a lookup or a commit of this session can see. -/
def mCoverNames (sess : MSession) : List String :=
  sess.base.map lowerName ++ sess.inserts.map lowerName

/-- Helper: an upsert step can only extend the visible name set. -/
theorem mStep_cover_mono (sess : MSession) (row : MRow) :
    ∀ x ∈ mCoverNames sess, x ∈ mCoverNames (mStep sess row) := by
  unfold mStep
  split
  · intro x hx; exact hx
  · intro x hx
    unfold mCoverNames at hx ⊢
    rcases List.mem_append.mp hx with h | h
    · exact List.mem_append.mpr (Or.inl h)
    · refine List.mem_append.mpr (Or.inr ?_)
      rw [List.map_append]
      exact List.mem_append.mpr (Or.inl h)

/-- Helper: after an upsert step the lowercased name of the staged row is
visible. -/
theorem mStep_cover_self (sess : MSession) (row : MRow) :
    lowerName row ∈ mCoverNames (mStep sess row) := by
  unfold mStep
  split
  · next i hidx =>
    have hex : ∃ b ∈ sess.base, (b.name.toLower == row.name.toLower) = true := by
      by_contra hno
      push_neg at hno
      have hnone : sess.base.findIdx? (fun b => b.name.toLower == row.name.toLower) = none :=
        List.findIdx?_eq_none_iff.mpr (fun b hb => by
          have := hno b hb
          simpa using this)
      rw [hnone] at hidx
      cases hidx
    rcases hex with ⟨b, hb, hbeq⟩
    have hble : b.name.toLower = row.name.toLower := eq_of_beq hbeq
    unfold mCoverNames
    refine List.mem_append.mpr (Or.inl ?_)
    exact List.mem_map.mpr ⟨b, hb, hble⟩
  · next hidx =>
    unfold mCoverNames
    refine List.mem_append.mpr (Or.inr ?_)
    rw [show (({ sess with inserts := sess.inserts ++ [row] } : MSession)).inserts
        = sess.inserts ++ [row] from rfl, List.map_append]
    refine List.mem_append.mpr (Or.inr ?_)
    simp

/-- Helper: the visible name set only grows along the loop, and it ends
up covering the canonical name of every processed record. -/
theorem mLoop_cover (rates : Rates) (ts : Nat) (mult : Nat → ℚ) :
    ∀ (records : List RawCountry) (idx : Nat) (sess : MSession),
    (∀ x ∈ mCoverNames sess, x ∈ mCoverNames (mLoop rates ts mult records idx sess).1) ∧
    (∀ r ∈ records, ∀ n, mRecordName rates r = some n →
      n.toLower ∈ mCoverNames (mLoop rates ts mult records idx sess).1) := by
  intro records
  induction records with
  | nil =>
    intro idx sess
    exact ⟨fun x hx => hx, fun r hr => absurd hr (List.not_mem_nil r)⟩
  | cons r rest ih =>
    intro idx sess
    match hp : mProcessRecord rates ts (mult idx) r with
    | Except.ok (some row) =>
      simp only [mLoop, hp]
      obtain ⟨mono, cover⟩ := ih (idx + 1) (mStep sess row)
      refine ⟨fun x hx => mono x (mStep_cover_mono sess row x hx), ?_⟩
      intro r2 hr2 n hn
      rcases List.mem_cons.mp hr2 with h | h
      · subst h
        have hname : some n = some row.name := by
          rw [← hn, mRecordName_of_ok hp]
        rw [Option.some.inj hname]
        exact mono _ (mStep_cover_self sess row)
      · exact cover r2 h n hn
    | Except.ok none =>
      simp only [mLoop, hp]
      obtain ⟨mono, cover⟩ := ih (idx + 1) sess
      refine ⟨mono, ?_⟩
      intro r2 hr2 n hn
      rcases List.mem_cons.mp hr2 with h | h
      · subst h
        rw [← mProcessName_const rates ts (mult idx) r2, hp] at hn
        cases hn
      · exact cover r2 h n hn
    | Except.error () =>
      simp only [mLoop, hp]
      obtain ⟨mono, cover⟩ := ih (idx + 1) sess
      refine ⟨mono, ?_⟩
      intro r2 hr2 n hn
      rcases List.mem_cons.mp hr2 with h | h
      · subst h
        rw [← mProcessName_const rates ts (mult idx) r2, hp] at hn
        cases hn
      · exact cover r2 h n hn

/-- Helper: when the lowercased name of every processed record already exists
among the committed rows, the loop stages no inserts. -/
theorem mLoop_no_inserts (rates : Rates) (ts : Nat) (mult : Nat → ℚ) :
    ∀ (records : List RawCountry) (idx : Nat) (sess : MSession),
    sess.inserts = [] →
    (∀ r ∈ records, ∀ n, mRecordName rates r = some n →
      ∃ b ∈ sess.base, b.name.toLower = n.toLower) →
    (mLoop rates ts mult records idx sess).1.inserts = [] := by
  intro records
  induction records with
  | nil => intro idx sess h _; exact h
  | cons r rest ih =>
    intro idx sess hins hcov
    match hp : mProcessRecord rates ts (mult idx) r with
    | Except.ok (some row) =>
      simp only [mLoop, hp]
      have hex := hcov r (List.mem_cons_self r rest) row.name (mRecordName_of_ok hp)
      match hidx : sess.base.findIdx? (fun b => b.name.toLower == row.name.toLower) with
      | none =>
        exfalso
        rcases hex with ⟨b, hb, hbe⟩
        have := List.findIdx?_eq_none_iff.mp hidx b hb
        rw [hbe] at this
        simp at this
      | some i =>
        have hstep : mStep sess row = { sess with mods := (i, row) :: sess.mods } := by
          unfold mStep
          rw [hidx]
        rw [hstep]
        exact ih (idx + 1) _ hins
          (fun r2 hr2 n hn => hcov r2 (List.mem_cons_of_mem r hr2) n hn)
    | Except.ok none =>
      simp only [mLoop, hp]
      exact ih (idx + 1) sess hins
        (fun r2 hr2 n hn => hcov r2 (List.mem_cons_of_mem r hr2) n hn)
    | Except.error () =>
      simp only [mLoop, hp]
      exact ih (idx + 1) sess hins
        (fun r2 hr2 n hn => hcov r2 (List.mem_cons_of_mem r hr2) n hn)

/-- Helper: flushing updates never changes the stored names (a `main.py`
update does not assign `name`). -/
theorem mApplyModsFrom_names (mods : List (Nat × MRow)) :
    ∀ (i : Nat) (base : List MRow),
      (mApplyModsFrom mods i base).map MRow.name = base.map MRow.name := by
  intro i base
  induction base generalizing i with
  | nil => rfl
  | cons b bs ih =>
    rcases hf : (mods.find? (fun p : Nat × MRow => p.1 == i)).map Prod.snd with _ | m <;>
      simp [mApplyModsFrom, hf, ih (i + 1)]

/-- Helper: flushing updates preserves the row count. -/
theorem mApplyMods_length (base : List MRow) (mods : List (Nat × MRow)) :
    (mApplyMods base mods).length = base.length := by
  have h := congrArg List.length (mApplyModsFrom_names mods 0 base)
  simpa using h

/-- Helper: mapping the lowercased name factors through the name map. -/
theorem map_lowerName (l : List MRow) :
    l.map lowerName = (l.map MRow.name).map String.toLower := by
  rw [List.map_map]
  rfl

/-- Helper: a successful `main.py` refresh returns exactly the rows its
commit flushed. -/
theorem mRefresh_success_rows (cf : List RawCountry) (rates : Rates) (ts : Nat)
    (mult : Nat → ℚ) (db : List MRow) (p t : Nat)
    (h : (mRefresh (Except.ok cf) (Except.ok rates) ts mult db).2 = MOutcome.success p t) :
    mCommit (mLoop rates ts mult cf 0 ⟨db, [], []⟩).1 =
      some (mRefresh (Except.ok cf) (Except.ok rates) ts mult db).1 := by
  revert h
  unfold mRefresh
  dsimp only
  match hc : mCommit (mLoop rates ts mult cf 0 ⟨db, [], []⟩).1 with
  | none => intro h; cases h
  | some rows => intro h; rfl

/-- Helper: a session without pending inserts always commits, flushing
just its updates. -/
theorem mCommit_no_inserts {sess : MSession} (h : sess.inserts = []) :
    mCommit sess = some (mApplyMods sess.base sess.mods) := by
  unfold mCommit
  rw [h]
  dsimp only
  rw [if_pos ⟨by simp, by simp⟩]
  simp

/-- C4 (amended): after a successful refresh cycle, re-running the cycle
with the identical fetched country list and rate mapping leaves the
stored row count unchanged: the name of every processed record now matches a
stored record case-insensitively, so the second run stages no inserts.
(The within-batch half of the original claim fails: pending inserts are
invisible to same-batch lookups, so a name occurring twice with differing
casing on a store lacking it yields two rows, as the counterexample
shows; when a matching row already exists both occurrences update it in
place.) -/
theorem refresh_row_count_idempotent (cf : List RawCountry) (rates : Rates)
    (ts ts2 : Nat) (mult mult2 : Nat → ℚ) (db : List MRow) (p t : Nat)
    (h1 : (mRefresh (Except.ok cf) (Except.ok rates) ts mult db).2 = MOutcome.success p t) :
    (mRefresh (Except.ok cf) (Except.ok rates) ts2 mult2
        (mRefresh (Except.ok cf) (Except.ok rates) ts mult db).1).1.length =
      (mRefresh (Except.ok cf) (Except.ok rates) ts mult db).1.length := by
  have hc1 : mCommit (mLoop rates ts mult cf 0 ⟨db, [], []⟩).1 =
      some (mRefresh (Except.ok cf) (Except.ok rates) ts mult db).1 :=
    mRefresh_success_rows cf rates ts mult db p t h1
  have hb1 : (mLoop rates ts mult cf 0 ⟨db, [], []⟩).1.base = db :=
    (mLoop_state rates ts mult cf 0 _).1
  have hrows1eq : (mRefresh (Except.ok cf) (Except.ok rates) ts mult db).1 =
      mApplyMods db (mLoop rates ts mult cf 0 ⟨db, [], []⟩).1.mods ++
        (mLoop rates ts mult cf 0 ⟨db, [], []⟩).1.inserts := by
    have h2 := mCommit_eq_some hc1
    rw [h2, mApplyMods, mApplyMods, hb1]
  have hnames : (mRefresh (Except.ok cf) (Except.ok rates) ts mult db).1.map lowerName =
      mCoverNames (mLoop rates ts mult cf 0 ⟨db, [], []⟩).1 := by
    rw [hrows1eq]
    unfold mCoverNames
    rw [List.map_append, hb1]
    congr 1
    rw [map_lowerName, map_lowerName, mApplyMods, mApplyModsFrom_names]
  have hcover : ∀ r ∈ cf, ∀ n, mRecordName rates r = some n →
      ∃ b ∈ (mRefresh (Except.ok cf) (Except.ok rates) ts mult db).1,
        b.name.toLower = n.toLower := by
    intro r hr n hn
    have hmem := (mLoop_cover rates ts mult cf 0 ⟨db, [], []⟩).2 r hr n hn
    rw [← hnames] at hmem
    rcases List.mem_map.mp hmem with ⟨b, hb, hbl⟩
    exact ⟨b, hb, hbl⟩
  set R := (mRefresh (Except.ok cf) (Except.ok rates) ts mult db).1 with hR
  have hins2 : (mLoop rates ts2 mult2 cf 0 ⟨R, [], []⟩).1.inserts = [] :=
    mLoop_no_inserts rates ts2 mult2 cf 0 _ rfl hcover
  have hb2 : (mLoop rates ts2 mult2 cf 0 ⟨R, [], []⟩).1.base = R :=
    (mLoop_state rates ts2 mult2 cf 0 _).1
  have hc2 := mCommit_no_inserts hins2
  show (mRefresh (Except.ok cf) (Except.ok rates) ts2 mult2 R).1.length = R.length
  unfold mRefresh
  dsimp only
  rw [hc2]
  dsimp only
  rw [hb2]
  exact mApplyMods_length _ _

/-- Witness for `refresh_row_count_idempotent` at a concrete input. -/
theorem refresh_row_count_idempotent_witness :
    (mRefresh (Except.ok [chadRaw]) (Except.ok []) 8 (fun _ => 1)
        (mRefresh (Except.ok [chadRaw]) (Except.ok []) 7 (fun _ => 1) []).1).1.length =
      (mRefresh (Except.ok [chadRaw]) (Except.ok []) 7 (fun _ => 1) []).1.length :=
  refresh_row_count_idempotent [chadRaw] [] 7 8 (fun _ => 1) (fun _ => 1) [] 1 1 (by decide)

/-! ## C9 -/

/-- Helper: inserting into a sorted list grows the length by one. -/
theorem insertSorted_length (le : LRow → LRow → Bool) (x : LRow) :
    ∀ l : List LRow, (insertSorted le x l).length = l.length + 1 := by
  intro l
  induction l with
  | nil => rfl
  | cons y ys ih =>
    by_cases h : le x y <;> simp [insertSorted, h, ih]

/-- Helper: sorting preserves the length. -/
theorem sortRows_length (le : LRow → LRow → Bool) :
    ∀ l : List LRow, (sortRows le l).length = l.length := by
  intro l
  induction l with
  | nil => rfl
  | cons x xs ih => simp [sortRows, insertSorted_length, ih]

/-- Helper: the `ORDER BY` step preserves the length. -/
theorem sortCountries_length (s : Option String) (l : List LRow) :
    (sortCountries s l).length = l.length := by
  unfold sortCountries
  split <;> simp [sortRows_length]

/-- Helper: filtering an empty table yields an empty result. -/
theorem regionFilter_nil (region : Option String) :
    regionFilter region [] = [] := by
  cases region <;> simp [regionFilter]

/-- C9: in `read_countries`, a query whose page is empty while `skip > 0`
raises the explicit 404 "no more results" error rather than returning an
empty list; in particular any `skip > 0` beyond the unfiltered row count
row count errors, while the same query at `skip = 0` on an empty table
returns the empty list successfully. -/
theorem pagination_out_of_range (skip limit : Int) (region sort_by : Option String)
    (rows : List LRow) :
    (0 < skip → read_countries skip limit region sort_by rows ≠ Except.ok []) ∧
    (0 < skip → rows.length ≤ skip.toNat → region = none →
      read_countries skip limit region sort_by rows = Except.error ()) ∧
    read_countries 0 limit region sort_by ([] : List LRow) = Except.ok [] := by
  refine ⟨?_, ?_, ?_⟩
  · intro hskip
    unfold read_countries
    dsimp only
    generalize (if limit < 0
        then (sortCountries sort_by (regionFilter region rows)).drop skip.toNat
        else ((sortCountries sort_by (regionFilter region rows)).drop skip.toNat).take
          limit.toNat) = page
    by_cases hpage : page.isEmpty
    · rw [if_pos ⟨hpage, hskip⟩]
      intro h
      cases h
    · rw [if_neg (fun hc => hpage hc.1)]
      intro h
      rw [Except.ok.inj h] at hpage
      exact hpage rfl
  · intro hskip hlen hreg
    subst hreg
    unfold read_countries
    dsimp only
    have hsorted : (sortCountries sort_by (regionFilter none rows)).length = rows.length := by
      rw [show regionFilter none rows = rows from rfl, sortCountries_length]
    have hdrop : (sortCountries sort_by (regionFilter none rows)).drop skip.toNat = [] :=
      List.drop_eq_nil_of_le (by rw [hsorted]; exact hlen)
    rw [hdrop]
    have hpage : (if limit < 0 then ([] : List LRow) else [].take limit.toNat) = [] := by
      split <;> simp
    rw [hpage]
    rw [if_pos ⟨rfl, hskip⟩]
  · unfold read_countries
    dsimp only
    rw [regionFilter_nil]
    rw [show sortCountries sort_by [] = [] by unfold sortCountries; split <;> rfl]
    rw [show (([] : List LRow).drop (0 : Int).toNat) = [] from rfl]
    have hpage : (if limit < 0 then ([] : List LRow) else [].take limit.toNat) = [] := by
      split <;> simp
    rw [hpage]
    rw [if_neg (fun hc => by exact absurd hc.2 (by norm_num))]

/-- Witness for `pagination_out_of_range` at a concrete input. -/
theorem pagination_out_of_range_witness :
    (read_countries 5 10 none none [] ≠ Except.ok []) ∧
    (read_countries 5 10 none none [] = Except.error ()) ∧
    read_countries 0 10 none none [] = Except.ok [] :=
  ⟨(pagination_out_of_range 5 10 none none []).1 (by norm_num),
   (pagination_out_of_range 5 10 none none []).2.1 (by norm_num) (by norm_num) rfl,
   (pagination_out_of_range 5 10 none none []).2.2⟩

/-! ## C10 -/

/-- Helper: a successful `find?` splits the list at the first match. -/
theorem find?_first {α : Type} (p : α → Bool) :
    ∀ (l : List α) (a : α), l.find? p = some a →
      ∃ pre post, l = pre ++ a :: post ∧ ∀ x ∈ pre, p x = false := by
  intro l
  induction l with
  | nil => intro a h; cases h
  | cons b bs ih =>
    intro a h
    by_cases hb : p b
    · rw [List.find?_cons_of_pos bs hb] at h
      refine ⟨[], bs, ?_, fun x hx => absurd hx (List.not_mem_nil x)⟩
      rw [← Option.some.inj h]
      rfl
    · rw [List.find?_cons_of_neg bs (by simpa using hb)] at h
      rcases ih a h with ⟨pre, post, heq, hpre⟩
      refine ⟨b :: pre, post, by rw [heq]; rfl, ?_⟩
      intro x hx
      rcases List.mem_cons.mp hx with h2 | h2
      · rw [h2]
        simpa using hb
      · exact hpre x h2

/-- A stored row named "Chad". -/
def chadLRow : LRow :=
  { name := some "Chad", population := some 5, currency_code := none,
    capital := none, region := none, exchange_rate := none,
    estimated_gdp := none, flag_url := none, last_refreshed_at := 7 }

/-- C10: `read_country_by_name` matches the raw path parameter against
stored names with case-insensitive `ilike` in which `%` and `_` act as
wildcards: a 404 error is raised exactly when no stored row matches, a
successful lookup returns the first matching row (every earlier row fails
the pattern), and a stored row named "Chad" at the front is returned for
the request "C_ad". -/
theorem name_lookup_ilike (pat : String) (rows : List LRow) :
    (read_country_by_name pat rows = Except.error () ↔
      ∀ r ∈ rows, nameMatches pat r = false) ∧
    (∀ r, read_country_by_name pat rows = Except.ok r →
      r ∈ rows ∧ nameMatches pat r = true ∧
      ∃ pre post, rows = pre ++ r :: post ∧ ∀ x ∈ pre, nameMatches pat x = false) ∧
    (∀ (r : LRow) (rest : List LRow), r.name = some "Chad" →
      read_country_by_name "C_ad" (r :: rest) = Except.ok r) := by
  refine ⟨⟨?_, ?_⟩, ?_, ?_⟩
  · intro h r hr
    revert h
    unfold read_country_by_name
    match hf : rows.find? (fun r => nameMatches pat r) with
    | some r2 => intro h; cases h
    | none =>
      intro _
      have := List.find?_eq_none.mp hf r hr
      simpa using this
  · intro hall
    unfold read_country_by_name
    rw [List.find?_eq_none.mpr (fun x hx => by simp [hall x hx])]
  · intro r h
    revert h
    unfold read_country_by_name
    match hf : rows.find? (fun r => nameMatches pat r) with
    | none => intro h; cases h
    | some r2 =>
      intro h
      rw [← Except.ok.inj h]
      refine ⟨List.mem_of_find?_eq_some hf, List.find?_some hf, ?_⟩
      exact find?_first _ rows r2 hf
  · intro r rest hname
    unfold read_country_by_name
    rw [List.find?_cons_of_pos rest (by unfold nameMatches; rw [hname]; decide)]

/-- Witness for `name_lookup_ilike` at a concrete input. -/
theorem name_lookup_ilike_witness :
    read_country_by_name "C_ad" [chadLRow] = Except.ok chadLRow ∧
    nameMatches "C_ad" chadLRow = true :=
  ⟨(name_lookup_ilike "C_ad" [chadLRow]).2.2 chadLRow [] rfl,
   ((name_lookup_ilike "C_ad" [chadLRow]).2.1 chadLRow
     ((name_lookup_ilike "C_ad" [chadLRow]).2.2 chadLRow [] rfl)).2.1⟩

end CountryXchange
